import Mathlib

/-!
# Verification of the expense query/aggregation engine

Shallow embedding of the pure core of the Expense-Tracker repository:
the filter predicate of `src/components/ExpenseList.tsx` and the
functions of `src/lib/utils.ts` (`getDateRangeFromPreset`,
`sortExpenses`, `groupExpenses`, `calculateSummary`, `exportToCSV`),
together with theorems settling the frozen claims about them.

Modelling conventions:

* Calendar dates are embedded structurally as year/month/day triples.
  The source stores dates as ISO `yyyy-MM-dd` strings and converts them
  with `parseISO`; comparing two parsed dates by timestamp agrees with
  the lexicographic comparison of the triples, which is how the
  embedding compares them.
* An instant (JS `Date`) is a calendar date plus milliseconds elapsed
  inside that day, matching the local-time decomposition used by the
  date-fns boundary helpers (`startOfDay`, `endOfMonth`, ...).
* Amounts (JS `number`) are embedded as integers: every claim about
  amounts concerns ordering, summation and decimal rendering, none of
  which exercises float-specific behaviour.
* `Array.prototype.sort` is required by ECMAScript to be stable; any
  stable sort with the same comparator produces the same output, so it
  is embedded as `List.insertionSort` with the comparator's reflexive
  closure.
* `isWithinInterval` follows date-fns v3+ semantics: inclusive bounds,
  and an inverted interval simply contains nothing.
* A JS object with string keys iterates integer-like keys first in
  ascending numeric order and all remaining keys in insertion order
  (ECMAScript OrdinaryOwnPropertyKeys); `ownKeys` embeds that order.
-/

/-- The closed six-value category union of `src/types/index.ts`. -/
inductive ExpenseCategory where
  | food
  | transportation
  | entertainment
  | shopping
  | bills
  | other
deriving DecidableEq, Repr

/-- The category's name, as the string literal of the union type. -/
def categoryName : ExpenseCategory → String
  | .food => "Food"
  | .transportation => "Transportation"
  | .entertainment => "Entertainment"
  | .shopping => "Shopping"
  | .bills => "Bills"
  | .other => "Other"

/-- The fixed enumeration order Food, Transportation, Entertainment,
Shopping, Bills, Other used by the category arrays of the source and by
the insertion order of the `categoryTotals` object literal. -/
def categoriesEnum : List ExpenseCategory :=
  [.food, .transportation, .entertainment, .shopping, .bills, .other]

/-- A calendar date, the structural form of a parsed ISO `yyyy-MM-dd`
string. -/
structure CalDate where
  year : Int
  month : Nat
  day : Nat
deriving DecidableEq, Repr

/-- An instant: a calendar date plus the milliseconds elapsed inside
that day (a JS `Date` under the local-time decomposition date-fns
uses). -/
structure DateTime where
  date : CalDate
  msOfDay : Nat
deriving DecidableEq, Repr

/-- Strict chronological order on calendar dates (lexicographic on
year, month, day; coincides with timestamp order for parsed dates). -/
def CalDate.lt (a b : CalDate) : Prop :=
  a.year < b.year ∨
    (a.year = b.year ∧ (a.month < b.month ∨ (a.month = b.month ∧ a.day < b.day)))

/-- Reflexive chronological order on calendar dates. -/
def CalDate.le (a b : CalDate) : Prop :=
  CalDate.lt a b ∨ a = b

instance : DecidableRel CalDate.lt := fun a b => by
  unfold CalDate.lt; infer_instance

instance : DecidableRel CalDate.le := fun a b => by
  unfold CalDate.le; infer_instance

/-- Chronological order on instants. -/
def DateTime.le (a b : DateTime) : Prop :=
  CalDate.lt a.date b.date ∨ (a.date = b.date ∧ a.msOfDay ≤ b.msOfDay)

instance : DecidableRel DateTime.le := fun a b => by
  unfold DateTime.le; infer_instance

/-- An expense record (`Expense` of `src/types/index.ts`). -/
structure Expense where
  id : String
  date : CalDate
  amount : Int
  category : ExpenseCategory
  description : String
  createdAt : String
  updatedAt : String
deriving DecidableEq, Repr

/-- Whether a year is a leap year in the proleptic Gregorian calendar
(the calendar arithmetic of the JS `Date` / date-fns dependency). -/
def isLeapYear (y : Int) : Bool :=
  (y % 4 == 0 && y % 100 != 0) || y % 400 == 0

/-- Days in a calendar month.  Only months 1..12 arise from parsed
dates; the catch-all mirrors no reachable source behaviour and merely
totalises the function. -/
def daysInMonth (y : Int) (m : Nat) : Nat :=
  match m with
  | 1 => 31
  | 2 => if isLeapYear y then 29 else 28
  | 3 => 31
  | 4 => 30
  | 5 => 31
  | 6 => 30
  | 7 => 31
  | 8 => 31
  | 9 => 30
  | 10 => 31
  | 11 => 30
  | 12 => 31
  | _ => 31

/-- The previous calendar day (day arithmetic with month/year borrow,
as performed by `subDays`). -/
def predDay (d : CalDate) : CalDate :=
  if 1 < d.day then ⟨d.year, d.month, d.day - 1⟩
  else if 1 < d.month then ⟨d.year, d.month - 1, daysInMonth d.year (d.month - 1)⟩
  else ⟨d.year - 1, 12, 31⟩

/-- The next calendar day (day arithmetic with month/year carry). -/
def succDay (d : CalDate) : CalDate :=
  if d.day < daysInMonth d.year d.month then ⟨d.year, d.month, d.day + 1⟩
  else if d.month < 12 then ⟨d.year, d.month + 1, 1⟩
  else ⟨d.year + 1, 1, 1⟩

/-- The previous calendar month (month arithmetic with year borrow, as
performed by `subMonths`). -/
def prevMonth (p : Int × Nat) : Int × Nat :=
  if 1 < p.2 then (p.1, p.2 - 1) else (p.1 - 1, 12)

/-- Days since 1970-01-01 of a calendar date (civil-from-days
conversion; the day-resolution content of JS `Date.getTime`). -/
def daysFromCivil (d : CalDate) : Int :=
  let y : Int := if d.month ≤ 2 then d.year - 1 else d.year
  let m : Int := d.month
  let dd : Int := d.day
  let era : Int := Int.fdiv y 400
  let yoe : Int := y - era * 400
  let doy : Int := Int.fdiv (153 * (m + (if 2 < d.month then -3 else 9)) + 2) 5 + dd - 1
  let doe : Int := yoe * 365 + Int.fdiv yoe 4 - Int.fdiv yoe 100 + doy
  era * 146097 + doe - 719468

/-- Day of week, 0 = Sunday (JS `Date.getDay`; 1970-01-01 was a
Thursday). -/
def dayOfWeek (d : CalDate) : Nat :=
  ((daysFromCivil d + 4).emod 7).toNat

/-- Milliseconds of the last represented instant of a day,
23:59:59.999 (`endOfDay` sets hours/minutes/seconds/ms to their
maxima). -/
def endOfDayMs : Nat := 86399999

/-- date-fns `startOfDay`. -/
def startOfDay (t : DateTime) : DateTime := ⟨t.date, 0⟩

/-- date-fns `endOfDay`. -/
def endOfDay (t : DateTime) : DateTime := ⟨t.date, endOfDayMs⟩

/-- date-fns `subDays`: step the calendar date back, keeping the time
of day. -/
def subDays (t : DateTime) (n : Nat) : DateTime := ⟨predDay^[n] t.date, t.msOfDay⟩

/-- date-fns `subMonths`: month arithmetic with the day-of-month
clamped to the target month's length. -/
def subMonths (t : DateTime) (n : Nat) : DateTime :=
  let p := prevMonth^[n] (t.date.year, t.date.month)
  ⟨⟨p.1, p.2, min t.date.day (daysInMonth p.1 p.2)⟩, t.msOfDay⟩

/-- date-fns `subYears`: year arithmetic with the day clamped (Feb 29
of a leap year steps to Feb 28). -/
def subYears (t : DateTime) (n : Nat) : DateTime :=
  ⟨⟨t.date.year - n, t.date.month, min t.date.day (daysInMonth (t.date.year - n) t.date.month)⟩,
    t.msOfDay⟩

/-- date-fns `startOfWeek` with `weekStartsOn: 0`: step back to the
containing week's Sunday, at the start of that day. -/
def startOfWeek (t : DateTime) : DateTime := ⟨predDay^[dayOfWeek t.date] t.date, 0⟩

/-- date-fns `endOfWeek` with `weekStartsOn: 0`: step forward to the
containing week's Saturday, at the end of that day. -/
def endOfWeek (t : DateTime) : DateTime := ⟨succDay^[6 - dayOfWeek t.date] t.date, endOfDayMs⟩

/-- date-fns `startOfMonth`. -/
def startOfMonth (t : DateTime) : DateTime := ⟨⟨t.date.year, t.date.month, 1⟩, 0⟩

/-- date-fns `endOfMonth`. -/
def endOfMonth (t : DateTime) : DateTime :=
  ⟨⟨t.date.year, t.date.month, daysInMonth t.date.year t.date.month⟩, endOfDayMs⟩

/-- date-fns `startOfYear`. -/
def startOfYear (t : DateTime) : DateTime := ⟨⟨t.date.year, 1, 1⟩, 0⟩

/-- date-fns `endOfYear`. -/
def endOfYear (t : DateTime) : DateTime := ⟨⟨t.date.year, 12, 31⟩, endOfDayMs⟩

/-- The resolved range of a date preset (`{ startDate, endDate }`). -/
structure DateRange where
  startDate : DateTime
  endDate : DateTime
deriving DecidableEq, Repr

/-- `getDateRangeFromPreset` of `src/lib/utils.ts`.  The preset is a
string, as the TS union is at runtime; the trailing catch-all is the
`default` branch of the switch.  `now` is passed explicitly where the
source reads the ambient clock. -/
def getDateRangeFromPreset (preset : String) (now : DateTime) : Option DateRange :=
  if preset = "today" then
    some ⟨startOfDay now, endOfDay now⟩
  else if preset = "yesterday" then
    let yesterday := subDays now 1
    some ⟨startOfDay yesterday, endOfDay yesterday⟩
  else if preset = "thisWeek" then
    some ⟨startOfWeek now, endOfWeek now⟩
  else if preset = "lastWeek" then
    let lastWeek := subDays now 7
    some ⟨startOfWeek lastWeek, endOfWeek lastWeek⟩
  else if preset = "thisMonth" then
    some ⟨startOfMonth now, endOfMonth now⟩
  else if preset = "lastMonth" then
    let lastMonth := subMonths now 1
    some ⟨startOfMonth lastMonth, endOfMonth lastMonth⟩
  else if preset = "last3Months" then
    some ⟨startOfMonth (subMonths now 2), endOfMonth now⟩
  else if preset = "last6Months" then
    some ⟨startOfMonth (subMonths now 5), endOfMonth now⟩
  else if preset = "thisYear" then
    some ⟨startOfYear now, endOfYear now⟩
  else if preset = "lastYear" then
    let lastYear := subYears now 1
    some ⟨startOfYear lastYear, endOfYear lastYear⟩
  else if preset = "custom" then
    none
  else
    none

/-- Sort fields of `SortConfig`. -/
inductive SortField where
  | date
  | amount
  | category
  | description
deriving DecidableEq, Repr

/-- Sort directions of `SortConfig`. -/
inductive SortDirection where
  | asc
  | desc
deriving DecidableEq, Repr

/-- `SortConfig` of `src/types/index.ts`. -/
structure SortConfig where
  field : SortField
  direction : SortDirection
deriving DecidableEq, Repr

/-- The comparison value of `localeCompare` for the ASCII category and
description strings: negative, zero or positive as the first string is
below, equal to or above the second. -/
def strCompare (a b : String) : Int :=
  if a < b then -1 else if b < a then 1 else 0

/-- The `comparison` value computed by the comparator of
`sortExpenses` before the direction is applied: timestamp difference
for `date`, amount difference for `amount`, `localeCompare` for
`category` and `description`. -/
def fieldCompare (f : SortField) (a b : Expense) : Int :=
  match f with
  | .date => daysFromCivil a.date - daysFromCivil b.date
  | .amount => a.amount - b.amount
  | .category => strCompare (categoryName a.category) (categoryName b.category)
  | .description => strCompare a.description b.description

/-- The full comparator of `sortExpenses`: `desc` negates the
comparison. -/
def jsCompare (cfg : SortConfig) (a b : Expense) : Int :=
  match cfg.direction with
  | .asc => fieldCompare cfg.field a b
  | .desc => -(fieldCompare cfg.field a b)

/-- The non-strict ordering induced by the comparator, under which a
stable comparison sort (what ECMAScript requires of
`Array.prototype.sort`) orders the records. -/
def sortRel (cfg : SortConfig) (a b : Expense) : Prop := jsCompare cfg a b ≤ 0

instance : DecidableRel (sortRel cfg) := fun a b => by
  unfold sortRel; infer_instance

/-- `sortExpenses` of `src/lib/utils.ts`: a stable sort of a copy of
the input by the configured comparator. -/
def sortExpenses (expenses : List Expense) (cfg : SortConfig) : List Expense :=
  expenses.insertionSort (sortRel cfg)

/-- Flipping the sort direction (clicking the same column header
twice). -/
def toggleDirection (cfg : SortConfig) : SortConfig :=
  ⟨cfg.field, match cfg.direction with | .asc => .desc | .desc => .asc⟩

/-- Grouping strategies (`GroupByOption` of `src/types/index.ts`). -/
inductive GroupByOption where
  | none
  | category
  | day
  | week
  | month
  | year
  | amountRange
deriving DecidableEq, Repr

/-- Abbreviated month names of the `MMM` format token.  Months outside
1..12 cannot arise from parsed dates; the fallback mirrors the
`Invalid Date` rendering of the JS date machinery. -/
def monthAbbrev (m : Nat) : String :=
  [ "Jan", "Feb", "Mar", "Apr", "May", "Jun",
    "Jul", "Aug", "Sep", "Oct", "Nov", "Dec" ].getD (m - 1) "Invalid"

/-- Full month names of the `MMMM` format token. -/
def monthName (m : Nat) : String :=
  [ "January", "February", "March", "April", "May", "June",
    "July", "August", "September", "October", "November", "December"
  ].getD (m - 1) "Invalid"

/-- Two-digit zero-padded rendering (`dd` format token). -/
def pad2 (n : Nat) : String :=
  if n < 10 then "0" ++ toString n else toString n

/-- Four-digit zero-padded year rendering (`yyyy` format token). -/
def yearLabel (y : Int) : String :=
  if y < 0 then "-" ++ toString (-y).toNat
  else if y.toNat < 10 then "000" ++ toString y.toNat
  else if y.toNat < 100 then "00" ++ toString y.toNat
  else if y.toNat < 1000 then "0" ++ toString y.toNat
  else toString y.toNat

/-- `format(date, 'MMM dd, yyyy')`, the label of `formatDate` and of
day grouping. -/
def formatDayLabel (d : CalDate) : String :=
  monthAbbrev d.month ++ " " ++ pad2 d.day ++ ", " ++ yearLabel d.year

/-- `formatDate` of `src/lib/utils.ts`. -/
def formatDate (d : CalDate) : String := formatDayLabel d

/-- The group label of one record under one strategy: the `groupKey`
computed inside the `forEach` of `groupExpenses`.  `.none` never
reaches this switch in the source (it returns early); the `.none` arm
here is the unreachable `default` arm of the switch. -/
def labelOf (groupBy : GroupByOption) (e : Expense) : String :=
  match groupBy with
  | .category => categoryName e.category
  | .day => formatDayLabel e.date
  | .week => "Week of " ++ formatDayLabel (predDay^[dayOfWeek e.date] e.date)
  | .month => monthName e.date.month ++ " " ++ yearLabel e.date.year
  | .year => yearLabel e.date.year
  | .amountRange =>
    if e.amount < 25 then "$0 - $25"
    else if e.amount < 50 then "$25 - $50"
    else if e.amount < 100 then "$50 - $100"
    else if e.amount < 250 then "$100 - $250"
    else if e.amount < 500 then "$250 - $500"
    else "$500+"
  | .none => "All Expenses"

/-- One step of the `forEach` body of `groupExpenses`: push the record
onto the existing group for its key, or create that group at the end
(JS object insertion order). -/
def insertGroup : List (String × List Expense) → String → Expense → List (String × List Expense)
  | [], k, e => [(k, [e])]
  | (k', es) :: rest, k, e =>
    if k' = k then (k', es ++ [e]) :: rest
    else (k', es) :: insertGroup rest k e

/-- `groupExpenses` of `src/lib/utils.ts`: the groups object as an
insertion-ordered association list. -/
def groupExpenses (expenses : List Expense) (groupBy : GroupByOption) :
    List (String × List Expense) :=
  if groupBy = .none then [("All Expenses", expenses)]
  else expenses.foldl (fun groups e => insertGroup groups (labelOf groupBy e) e) []

/-- Whether a string is an ECMAScript array-index property key: a
canonical decimal numeral whose value is below 2^32 - 1. -/
def isArrayIndex (s : String) : Bool :=
  match s.data with
  | [] => false
  | c :: cs =>
    (c :: cs).all (·.isDigit) && (c ≠ '0' || cs = []) &&
      (c :: cs).foldl (fun n ch => 10 * n + (ch.toNat - 48)) 0 < 4294967295

/-- The property iteration order of a JS object with string keys
(ECMAScript `OrdinaryOwnPropertyKeys`): array-index keys in ascending
numeric order first, then the remaining keys in insertion order. -/
def ownKeys (groups : List (String × List Expense)) : List String :=
  let ks := groups.map Prod.fst
  (ks.filter (fun k => isArrayIndex k)).insertionSort
      (fun a b => a.data.foldl (fun n ch => 10 * n + (ch.toNat - 48)) 0
        ≤ b.data.foldl (fun n ch => 10 * n + (ch.toNat - 48)) 0)
    ++ ks.filter (fun k => !(isArrayIndex k))

instance : DecidableRel
    (fun (a b : String) => a.data.foldl (fun n ch => 10 * n + (ch.toNat - 48)) 0
      ≤ b.data.foldl (fun n ch => 10 * n + (ch.toNat - 48)) 0) := fun a b => by
  infer_instance

/-- The labels of the groups, in the order the underlying JS object
was built: the first-encounter order of labels within the input. -/
def firstEncounterLabels (expenses : List Expense) (groupBy : GroupByOption) : List String :=
  expenses.foldl
    (fun ks e => if labelOf groupBy e ∈ ks then ks else ks ++ [labelOf groupBy e]) []

/-- `ExpenseFilters` of `src/types/index.ts`, as read by the filter
predicate.  The component stores dates and the query as strings with
`''` meaning absent; those become `Option` / the empty string here.
`datePreset` is stored but never read by the predicate. -/
structure ExpenseFilters where
  categories : List ExpenseCategory
  startDate : Option CalDate
  endDate : Option CalDate
  datePreset : Option String
  searchQuery : String
  minAmount : Option Int
  maxAmount : Option Int
deriving DecidableEq, Repr

/-- date-fns `isWithinInterval` (v3+ semantics): inclusive containment,
false for every point of an inverted interval. -/
def isWithinInterval (d lo hi : CalDate) : Bool :=
  decide (CalDate.le lo d) && decide (CalDate.le d hi)

/-- JS `String.prototype.includes`. -/
def strIncludes (hay needle : String) : Bool :=
  decide (needle.data <:+: hay.data)

/-- The decimal rendering of an amount (JS `Number.prototype.toString`
for the integral amounts of the model). -/
def amountToString (n : Int) : String := toString n

/-- The predicate of the `filteredExpenses` memo of
`src/components/ExpenseList.tsx`, with its sequence of early-return
guards. -/
def passesFilters (filters : ExpenseFilters) (e : Expense) : Bool :=
  if filters.categories.length > 0 && !(filters.categories.contains e.category) then
    false
  else if (match filters.startDate, filters.endDate with
      | some s, some en => !(isWithinInterval e.date s en)
      | some s, Option.none => decide (CalDate.lt e.date s)
      | Option.none, some en => decide (CalDate.lt en e.date)
      | Option.none, Option.none => false) then
    false
  else if (match filters.minAmount with
      | some mn => decide (e.amount < mn)
      | Option.none => false) then
    false
  else if (match filters.maxAmount with
      | some mx => decide (mx < e.amount)
      | Option.none => false) then
    false
  else if filters.searchQuery ≠ "" then
    let query := filters.searchQuery.toLower
    strIncludes e.description.toLower query
      || strIncludes (categoryName e.category).toLower query
      || strIncludes (amountToString e.amount) query
  else
    true

/-- The `filteredExpenses` memo: `expenses.filter(...)`. -/
def filteredExpenses (expenses : List Expense) (filters : ExpenseFilters) : List Expense :=
  expenses.filter (fun e => passesFilters filters e)

/-- Restatement of the claim's per-record condition as a conjunction
of the four constraints: category membership (or empty set), inclusive
date range with one-sided bounds, inclusive amount bounds, and the
case-insensitive free-text OR across description, category name and
the amount's decimal string. -/
def claimPasses (filters : ExpenseFilters) (e : Expense) : Bool :=
  (filters.categories = [] || filters.categories.contains e.category)
    && ((match filters.startDate, filters.endDate with
        | some s, some en => decide (CalDate.le s e.date) && decide (CalDate.le e.date en)
        | some s, Option.none => decide (CalDate.le s e.date)
        | Option.none, some en => decide (CalDate.le e.date en)
        | Option.none, Option.none => true)
    && ((match filters.minAmount with
        | some mn => decide (mn ≤ e.amount)
        | Option.none => true)
    && ((match filters.maxAmount with
        | some mx => decide (e.amount ≤ mx)
        | Option.none => true)
    && (filters.searchQuery = ""
        || strIncludes e.description.toLower filters.searchQuery.toLower
        || strIncludes (categoryName e.category).toLower filters.searchQuery.toLower
        || strIncludes (amountToString e.amount) filters.searchQuery.toLower))))

/-- No constraint is present in the filter specification. -/
def noFiltersPresent (filters : ExpenseFilters) : Prop :=
  filters.categories = [] ∧ filters.startDate = Option.none ∧ filters.endDate = Option.none
    ∧ filters.searchQuery = "" ∧ filters.minAmount = Option.none
    ∧ filters.maxAmount = Option.none

/-- `ExpenseSummary` of `src/types/index.ts`.  Totals are integral;
the two means are rationals (JS division). -/
structure ExpenseSummary where
  totalExpenses : Int
  monthlyTotal : Int
  categoryTotals : ExpenseCategory → Int
  topCategory : Option (ExpenseCategory × Int)
  averageExpense : Rat
  averageDaily : Rat
  averageMonthly : Int
  highestExpense : Option Expense
  lowestExpense : Option Expense
  expenseCount : Nat

/-- The per-category totals accumulated by the `forEach` of
`calculateSummary` over the zero-initialised `categoryTotals`
record. -/
def categoryTotalsOf (expenses : List Expense) (c : ExpenseCategory) : Int :=
  expenses.foldl (fun s e => if e.category = c then s + e.amount else s) 0

/-- One step of the `Object.entries(categoryTotals).reduce` that
selects `topCategory`: replace the current best only on a strictly
greater total (`amount > (max?.amount || 0)`; a present best always
has a nonzero total, so `|| 0` only supplies the initial threshold). -/
def topCategoryStep (totals : ExpenseCategory → Int)
    (best : Option (ExpenseCategory × Int)) (c : ExpenseCategory) :
    Option (ExpenseCategory × Int) :=
  if totals c > (match best with | some b => b.2 | Option.none => 0) then some (c, totals c)
  else best

/-- The `topCategory` reduction over the entries of `categoryTotals`,
in the fixed insertion order of the object literal. -/
def topCategoryOf (expenses : List Expense) : Option (ExpenseCategory × Int) :=
  categoriesEnum.foldl (topCategoryStep (categoryTotalsOf expenses)) Option.none

/-- The ascending-by-amount stable sort `[...expenses].sort((a, b) =>
a.amount - b.amount)` used for the extrema. -/
def sortedByAmount (expenses : List Expense) : List Expense :=
  expenses.insertionSort (fun a b => a.amount - b.amount ≤ 0)

instance : DecidableRel (fun (a b : Expense) => a.amount - b.amount ≤ 0) := fun a b => by
  infer_instance

/-- `calculateSummary` of `src/lib/utils.ts`.  `now` is passed
explicitly where the source reads the ambient clock. -/
def calculateSummary (expenses : List Expense) (now : DateTime) : ExpenseSummary :=
  let totalExpenses : Int := expenses.foldl (fun s e => s + e.amount) 0
  let monthStart := startOfMonth now
  let monthEnd := endOfMonth now
  let monthlyExpenses := expenses.filter (fun e =>
    isWithinInterval e.date monthStart.date monthEnd.date)
  let monthlyTotal : Int := monthlyExpenses.foldl (fun s e => s + e.amount) 0
  let sorted := sortedByAmount expenses
  let averageDaily : Rat :=
    if expenses.length > 0 then
      let oldest : Int := ((expenses.map (fun e => daysFromCivil e.date)).min?).getD 0
      let daysDiff : Int := daysFromCivil now.date - oldest + 1
      if daysDiff > 0 then (totalExpenses : Rat) / (daysDiff : Rat) else 0
    else 0
  { totalExpenses := totalExpenses
    monthlyTotal := monthlyTotal
    categoryTotals := categoryTotalsOf expenses
    topCategory := topCategoryOf expenses
    averageExpense :=
      if expenses.length > 0 then (totalExpenses : Rat) / (expenses.length : Rat) else 0
    averageDaily := averageDaily
    averageMonthly := monthlyTotal
    highestExpense := sorted.getLast?
    lowestExpense := sorted.head?
    expenseCount := expenses.length }

/-- One CSV row of `exportToCSV`: each cell wrapped in double quotes
(the source performs no quote escaping) and the cells joined with
commas. -/
def csvRow (cells : List String) : String :=
  String.intercalate "," (cells.map (fun cell => "\"" ++ cell ++ "\""))

/-- `exportToCSV` of `src/lib/utils.ts`: the header line followed by
one quoted row per record, joined with newlines. -/
def exportToCSV (expenses : List Expense) : String :=
  String.intercalate "\n"
    ("Date,Amount,Category,Description" ::
      expenses.map (fun e =>
        csvRow [formatDate e.date, amountToString e.amount, categoryName e.category,
          e.description]))

/-! ## Order lemmas for the calendar arithmetic -/

theorem CalDate.lt_trans {a b c : CalDate} (h1 : CalDate.lt a b) (h2 : CalDate.lt b c) :
    CalDate.lt a c := by
  obtain ⟨ay, am, ad⟩ := a
  obtain ⟨by_, bm, bd⟩ := b
  obtain ⟨cy, cm, cd⟩ := c
  simp only [CalDate.lt] at h1 h2 ⊢
  omega

theorem CalDate.le_trans {a b c : CalDate} (h1 : CalDate.le a b) (h2 : CalDate.le b c) :
    CalDate.le a c := by
  rcases h1 with h1 | rfl
  · rcases h2 with h2 | rfl
    · exact Or.inl (CalDate.lt_trans h1 h2)
    · exact Or.inl h1
  · exact h2

theorem calLe_same_ym {y : Int} {m d1 d2 : Nat} (h : d1 ≤ d2) :
    CalDate.le ⟨y, m, d1⟩ ⟨y, m, d2⟩ := by
  simp only [CalDate.le, CalDate.lt, CalDate.mk.injEq, true_and, and_true]
  omega

theorem dtLe_of_calLe {a b : CalDate} {ma mb : Nat} (h : CalDate.le a b) (hm : ma ≤ mb) :
    DateTime.le ⟨a, ma⟩ ⟨b, mb⟩ := by
  rcases h with h | rfl
  · exact Or.inl h
  · exact Or.inr ⟨rfl, hm⟩

theorem predDay_lt (d : CalDate) : CalDate.lt (predDay d) d := by
  obtain ⟨y, m, dd⟩ := d
  simp only [predDay, CalDate.lt]
  split_ifs <;> simp_all <;> omega

theorem succDay_lt (d : CalDate) : CalDate.lt d (succDay d) := by
  obtain ⟨y, m, dd⟩ := d
  simp only [succDay, CalDate.lt]
  split_ifs <;> simp_all <;> omega

theorem predDay_iterate_le (n : Nat) (d : CalDate) : CalDate.le (predDay^[n] d) d := by
  induction n with
  | zero => exact Or.inr rfl
  | succ k ih =>
    rw [Function.iterate_succ_apply']
    exact CalDate.le_trans (Or.inl (predDay_lt _)) ih

theorem succDay_iterate_le (n : Nat) (d : CalDate) : CalDate.le d (succDay^[n] d) := by
  induction n with
  | zero => exact Or.inr rfl
  | succ k ih =>
    rw [Function.iterate_succ_apply']
    exact CalDate.le_trans ih (Or.inl (succDay_lt _))

theorem one_le_daysInMonth (y : Int) (m : Nat) : 1 ≤ daysInMonth y m := by
  unfold daysInMonth
  split <;> first | omega | (split <;> omega)

/-- Strict lexicographic decrease of `prevMonth` on the year/month
pair. -/
theorem prevMonth_lex (p : Int × Nat) :
    (prevMonth p).1 < p.1 ∨ ((prevMonth p).1 = p.1 ∧ (prevMonth p).2 < p.2) := by
  obtain ⟨y, m⟩ := p
  simp only [prevMonth]
  split_ifs <;> simp_all <;> omega

theorem prevMonth_iterate_lex (n : Nat) (hn : 0 < n) (p : Int × Nat) :
    (prevMonth^[n] p).1 < p.1 ∨ ((prevMonth^[n] p).1 = p.1 ∧ (prevMonth^[n] p).2 < p.2) := by
  induction n with
  | zero => omega
  | succ k ih =>
    rw [Function.iterate_succ_apply']
    rcases Nat.eq_zero_or_pos k with rfl | hk
    · simpa using prevMonth_lex p
    · rcases ih hk with h | ⟨h1, h2⟩ <;> rcases prevMonth_lex (prevMonth^[k] p) with g | ⟨g1, g2⟩
      · exact Or.inl (by omega)
      · exact Or.inl (by omega)
      · exact Or.inl (by omega)
      · exact Or.inr ⟨by omega, by omega⟩

/-- The preset strings the resolver recognises with a concrete range. -/
def rangedPresets : List String :=
  ["today", "yesterday", "thisWeek", "lastWeek", "thisMonth", "lastMonth",
    "last3Months", "last6Months", "thisYear", "lastYear"]

/-- C10: every recognised preset other than `custom` resolves, for
every current instant, to a range whose start is chronologically at or
before its end; `custom` and unrecognised strings resolve to `none`. -/
theorem datePreset_range_ordered (preset : String) (now : DateTime) :
    (preset ∈ rangedPresets →
      ∃ r, getDateRangeFromPreset preset now = some r ∧ DateTime.le r.startDate r.endDate)
    ∧ (preset ∉ rangedPresets → getDateRangeFromPreset preset now = Option.none) := by
  constructor
  · intro hmem
    simp only [rangedPresets, List.mem_cons, List.not_mem_nil, or_false] at hmem
    rcases hmem with rfl | rfl | rfl | rfl | rfl | rfl | rfl | rfl | rfl | rfl
    · exact ⟨_, rfl, dtLe_of_calLe (Or.inr rfl) (Nat.zero_le _)⟩
    · exact ⟨_, rfl, dtLe_of_calLe (Or.inr rfl) (Nat.zero_le _)⟩
    · exact ⟨_, rfl,
        dtLe_of_calLe (CalDate.le_trans (predDay_iterate_le _ _) (succDay_iterate_le _ _))
          (Nat.zero_le _)⟩
    · exact ⟨_, rfl,
        dtLe_of_calLe (CalDate.le_trans (predDay_iterate_le _ _) (succDay_iterate_le _ _))
          (Nat.zero_le _)⟩
    · exact ⟨_, rfl, dtLe_of_calLe (calLe_same_ym (one_le_daysInMonth _ _)) (Nat.zero_le _)⟩
    · exact ⟨_, rfl, dtLe_of_calLe (calLe_same_ym (one_le_daysInMonth _ _)) (Nat.zero_le _)⟩
    · refine ⟨_, rfl, dtLe_of_calLe (Or.inl ?_) (Nat.zero_le _)⟩
      have h := prevMonth_iterate_lex 2 (by omega) (now.date.year, now.date.month)
      simp only [CalDate.lt]
      rcases h with h | ⟨h1, h2⟩
      · exact Or.inl h
      · exact Or.inr ⟨h1, Or.inl h2⟩
    · refine ⟨_, rfl, dtLe_of_calLe (Or.inl ?_) (Nat.zero_le _)⟩
      have h := prevMonth_iterate_lex 5 (by omega) (now.date.year, now.date.month)
      simp only [CalDate.lt]
      rcases h with h | ⟨h1, h2⟩
      · exact Or.inl h
      · exact Or.inr ⟨h1, Or.inl h2⟩
    · refine ⟨_, rfl, dtLe_of_calLe ?_ (Nat.zero_le _)⟩
      simp only [startOfYear, endOfYear, CalDate.le, CalDate.lt, CalDate.mk.injEq, true_and,
        and_true]
      omega
    · refine ⟨_, rfl, dtLe_of_calLe ?_ (Nat.zero_le _)⟩
      simp only [startOfYear, endOfYear, subYears, CalDate.le, CalDate.lt, CalDate.mk.injEq,
        true_and, and_true]
      omega
  · intro hmem
    simp only [rangedPresets, List.mem_cons, List.not_mem_nil, or_false, not_or] at hmem
    obtain ⟨h1, h2, h3, h4, h5, h6, h7, h8, h9, h10⟩ := hmem
    simp only [getDateRangeFromPreset, h1, h2, h3, h4, h5, h6, h7, h8, h9, h10,
      if_false, ite_self]

/-- Witness for C10 at a concrete preset and instant. -/
theorem datePreset_range_ordered_witness :
    (∃ r, getDateRangeFromPreset "thisWeek" ⟨⟨2026, 10, 12⟩, 5000⟩ = some r
        ∧ DateTime.le r.startDate r.endDate)
    ∧ getDateRangeFromPreset "nonsense" ⟨⟨2026, 10, 12⟩, 5000⟩ = Option.none :=
  ⟨(datePreset_range_ordered "thisWeek" ⟨⟨2026, 10, 12⟩, 5000⟩).1 (by decide),
    (datePreset_range_ordered "nonsense" ⟨⟨2026, 10, 12⟩, 5000⟩).2 (by decide)⟩

/-! ## The filter predicate -/

theorem calDate_not_lt (a b : CalDate) : ¬ CalDate.lt a b ↔ CalDate.le b a := by
  obtain ⟨ay, am, ad⟩ := a
  obtain ⟨by_, bm, bd⟩ := b
  simp only [CalDate.lt, CalDate.le, CalDate.mk.injEq]
  omega

theorem ite_reject (b x : Bool) : (if b then false else x) = (!b && x) := by
  cases b <;> simp

/-- Pointwise agreement of the early:return guard chain of the source
with the conjunction stated by the specification. -/
theorem passes_eq_claim (f : ExpenseFilters) (e : Expense) :
    passesFilters f e = claimPasses f e := by
  simp only [passesFilters, ite_reject, claimPasses]
  congr 1
  · cases hc : f.categories with
    | nil => simp
    | cons c cs => simp
  congr 1
  · cases f.startDate with
    | none =>
      cases f.endDate with
      | none => simp
      | some en =>
        simp only [← decide_not, decide_eq_decide]
        exact calDate_not_lt en e.date
    | some s =>
      cases f.endDate with
      | none =>
        simp only [← decide_not, decide_eq_decide]
        exact calDate_not_lt e.date s
      | some en => simp [isWithinInterval, Bool.not_not]
  congr 1
  · cases f.minAmount with
    | none => simp
    | some mn =>
      simp only [← decide_not, decide_eq_decide]
      omega
  congr 1
  · cases f.maxAmount with
    | none => simp
    | some mx =>
      simp only [← decide_not, decide_eq_decide]
      omega
  · by_cases hq : f.searchQuery = "" <;> simp [hq, Bool.or_assoc]

/-- C1: filtering keeps exactly the records satisfying the conjunction
of the present constraints, in input order, and is the identity when no
filter is present. -/
theorem filter_matches_claim (expenses : List Expense) (filters : ExpenseFilters) :
    filteredExpenses expenses filters = expenses.filter (fun e => claimPasses filters e)
      ∧ (noFiltersPresent filters → filteredExpenses expenses filters = expenses) := by
  constructor
  · exact List.filter_congr (fun e _ => passes_eq_claim filters e)
  · intro h
    obtain ⟨h1, h2, h3, h4, h5, h6⟩ := h
    unfold filteredExpenses
    rw [List.filter_eq_self]
    intro e _
    simp [passesFilters, h1, h2, h3, h4, h5, h6]

/-- Witness for C1: the no-filter specification is the identity on a
concrete list. -/
theorem filter_matches_claim_witness :
    filteredExpenses [⟨"1", ⟨2024, 1, 5⟩, 12, .food, "lunch", "", ""⟩]
        ⟨[], Option.none, Option.none, Option.none, "", Option.none, Option.none⟩
      = [⟨"1", ⟨2024, 1, 5⟩, 12, .food, "lunch", "", ""⟩] :=
  (filter_matches_claim [⟨"1", ⟨2024, 1, 5⟩, 12, .food, "lunch", "", ""⟩]
      ⟨[], Option.none, Option.none, Option.none, "", Option.none, Option.none⟩).2
    ⟨rfl, rfl, rfl, rfl, rfl, rfl⟩

/-- A filter specification whose amount bounds or date bounds are
contradictory. -/
def contradictoryBounds (f : ExpenseFilters) : Prop :=
  (∃ mn mx, f.minAmount = some mn ∧ f.maxAmount = some mx ∧ mx < mn)
    ∨ (∃ s en, f.startDate = some s ∧ f.endDate = some en ∧ CalDate.lt en s)

/-- C9: contradictory bounds make the filter match nothing, as a
normal result of the total predicate (no exception exists in the
embedding; every record is merely rejected). -/
theorem contradictory_filter_empty (expenses : List Expense) (filters : ExpenseFilters)
    (h : contradictoryBounds filters) : filteredExpenses expenses filters = [] := by
  unfold filteredExpenses
  rw [List.filter_eq_nil_iff]
  intro e _
  rw [passes_eq_claim]
  rcases h with ⟨mn, mx, hmn, hmx, hlt⟩ | ⟨s, en, hs, hen, hlt⟩
  · intro hc
    simp [claimPasses, hmn, hmx] at hc
    omega
  · intro hc
    simp [claimPasses, hs, hen] at hc
    exact (calDate_not_lt en s).mpr (CalDate.le_trans hc.2.1.1 hc.2.1.2) hlt

/-- Witness for C9 at a concrete contradictory amount range. -/
theorem contradictory_filter_empty_witness :
    filteredExpenses [⟨"1", ⟨2024, 1, 5⟩, 12, .food, "lunch", "", ""⟩]
        ⟨[], Option.none, Option.none, Option.none, "", some 15, some 5⟩ = [] :=
  contradictory_filter_empty [⟨"1", ⟨2024, 1, 5⟩, 12, .food, "lunch", "", ""⟩]
    ⟨[], Option.none, Option.none, Option.none, "", some 15, some 5⟩
    (Or.inl ⟨15, 5, rfl, rfl, by omega⟩)

open List in
theorem insertionSort_filter_stable {α : Type} {r : α → α → Prop} [DecidableRel r]
    (p : α → Bool) (xs : List α) (hp : ∀ a b, p a = true → p b = true → r a b) :
    (xs.insertionSort r).filter p = xs.filter p := by
  have hself : (xs.filter p).filter p = xs.filter p :=
    List.filter_eq_self.mpr (fun a ha => List.of_mem_filter ha)
  have hpair : (xs.filter p).Pairwise r :=
    List.pairwise_of_forall_mem_list (fun a ha b hb =>
      hp a b (List.of_mem_filter ha) (List.of_mem_filter hb))
  have h1 : xs.filter p <+ xs.insertionSort r :=
    List.sublist_insertionSort hpair (List.filter_sublist xs)
  have h2 : xs.filter p <+ (xs.insertionSort r).filter p := by
    have h3 := h1.filter p
    rwa [hself] at h3
  have hlen : ((xs.insertionSort r).filter p).length = (xs.filter p).length :=
    ((List.perm_insertionSort r xs).filter p).length_eq
  exact (h2.eq_of_length hlen.symm).symm

theorem strCompare_eq_zero {a b : String} : strCompare a b = 0 ↔ a = b := by
  unfold strCompare
  split_ifs with h1 h2
  · simp [ne_of_lt h1]
  · simp [(ne_of_lt h2).symm]
  · simp [le_antisymm (not_lt.mp h2) (not_lt.mp h1)]

theorem fieldCompare_zero_trans {f : SortField} {a b z : Expense}
    (ha : fieldCompare f a z = 0) (hb : fieldCompare f b z = 0) : fieldCompare f a b = 0 := by
  cases f <;> simp only [fieldCompare] at ha hb ⊢
  · omega
  · omega
  · rw [strCompare_eq_zero] at ha hb ⊢; rw [ha, hb]
  · rw [strCompare_eq_zero] at ha hb ⊢; rw [ha, hb]

/-- C5: sorting is stable — for every reference record, the
subsequence of records comparing equal to it under the chosen field is
exactly the same, in the same order, before and after sorting; the
output is a permutation of the (unmutated) input; and toggling the
direction twice returns the original configuration. -/
theorem sortExpenses_stable (expenses : List Expense) (cfg : SortConfig) (z : Expense) :
    (sortExpenses expenses cfg).filter (fun e => fieldCompare cfg.field e z == 0)
        = expenses.filter (fun e => fieldCompare cfg.field e z == 0)
      ∧ (sortExpenses expenses cfg).Perm expenses
      ∧ toggleDirection (toggleDirection cfg) = cfg := by
  refine ⟨?_, List.perm_insertionSort _ _, ?_⟩
  · apply insertionSort_filter_stable
    intro a b ha hb
    simp only [beq_iff_eq] at ha hb
    have hab := fieldCompare_zero_trans ha hb
    unfold sortRel jsCompare
    cases cfg.direction <;> simp [hab]
  · obtain ⟨f, dir⟩ := cfg
    cases dir <;> rfl

instance : IsTotal Expense (fun a b => a.amount - b.amount ≤ 0) :=
  ⟨fun a b => by omega⟩

instance : IsTrans Expense (fun a b => a.amount - b.amount ≤ 0) :=
  ⟨fun a b c h1 h2 => by omega⟩

theorem sorted_last_max (l : List Expense) :
    l.Sorted (fun a b => a.amount - b.amount ≤ 0) →
      ∀ b, l.getLast? = some b → ∀ e ∈ l, e.amount ≤ b.amount := by
  induction l with
  | nil => intro _ b hb; simp at hb
  | cons a t ih =>
    intro hs b hb e he
    cases t with
    | nil => simp_all
    | cons c cs =>
      rw [List.getLast?_cons_cons] at hb
      rcases List.mem_cons.mp he with rfl | het
      · have hbt : b ∈ c :: cs := List.mem_of_mem_getLast? hb
        have := List.rel_of_sorted_cons hs b hbt
        omega
      · exact ih hs.of_cons b hb e het

theorem filter_getLast?_keep (p : Expense → Bool) (l : List Expense) :
    ∀ b, l.getLast? = some b → p b = true → (l.filter p).getLast? = some b := by
  induction l with
  | nil => intro b hb; simp at hb
  | cons a t ih =>
    intro b hb hpb
    cases t with
    | nil =>
      simp only [List.getLast?_singleton, Option.some.injEq] at hb
      subst hb
      simp [List.filter_cons, hpb]
    | cons c cs =>
      rw [List.getLast?_cons_cons] at hb
      have ht := ih b hb hpb
      rw [List.filter_cons]
      split_ifs with hpa
      · rcases hfil : (c :: cs).filter p with _ | ⟨d, ds⟩
        · rw [hfil] at ht
          simp at ht
        · rw [hfil] at ht
          rw [List.getLast?_cons_cons]
          exact ht
      · exact ht

theorem summary_extrema (expenses : List Expense) (now : DateTime) :
    (calculateSummary expenses now).lowestExpense
        = expenses.find? (fun e => expenses.all (fun e2 => e.amount ≤ e2.amount))
      ∧ (calculateSummary expenses now).highestExpense
        = expenses.reverse.find? (fun e => expenses.all (fun e2 => e2.amount ≤ e.amount)) := by
  have hlow : (calculateSummary expenses now).lowestExpense = (sortedByAmount expenses).head? :=
    rfl
  have hhigh :
      (calculateSummary expenses now).highestExpense = (sortedByAmount expenses).getLast? := rfl
  have hperm : (sortedByAmount expenses).Perm expenses := List.perm_insertionSort _ _
  have hsorted : (sortedByAmount expenses).Sorted (fun a b => a.amount - b.amount ≤ 0) :=
    List.sorted_insertionSort _ _
  cases hxs : sortedByAmount expenses with
  | nil =>
    have : expenses = [] := List.nil_perm.mp (hxs ▸ hperm)
    subst this
    constructor <;> simp [hlow, hhigh, hxs]
  | cons a t =>
    rw [hxs] at hperm hsorted
    have hmin : ∀ e ∈ expenses, a.amount ≤ e.amount := by
      intro e he
      rcases List.mem_cons.mp (hperm.symm.subset he) with rfl | het
      · omega
      · have := List.rel_of_sorted_cons hsorted e het
        omega
    have hamem : a ∈ expenses := hperm.subset (List.mem_cons_self a t)
    constructor
    · have hcongr : ∀ e ∈ expenses,
          (expenses.all (fun e2 => decide (e.amount ≤ e2.amount)))
            = (decide (e.amount = a.amount)) := by
        intro e he
        by_cases h : e.amount = a.amount
        · have hall : expenses.all (fun e2 => decide (e.amount ≤ e2.amount)) = true := by
            rw [List.all_eq_true]
            intro e2 he2
            simp only [decide_eq_true_eq]
            rw [h]
            exact hmin e2 he2
          rw [hall]
          simp [h]
        · have hall : expenses.all (fun e2 => decide (e.amount ≤ e2.amount)) = false := by
            rw [List.all_eq_false]
            refine ⟨a, hamem, ?_⟩
            simp only [decide_eq_true_eq]
            intro hle
            exact h (le_antisymm hle (hmin e he))
          rw [hall]
          simp [h]
      have hstable := insertionSort_filter_stable (r := fun a b => a.amount - b.amount ≤ 0)
        (fun e => decide (e.amount = a.amount)) expenses
        (by intro x y hx hy; simp at hx hy; omega)
      unfold sortedByAmount at hxs
      rw [hxs] at hstable
      rw [hlow]
      unfold sortedByAmount
      rw [hxs, ← List.filter_head?, List.filter_congr hcongr, ← hstable]
      simp
    · rcases hlast : (a :: t).getLast? with _ | b
      · simp at hlast
      · have hbmem : b ∈ expenses := hperm.subset (List.mem_of_mem_getLast? hlast)
        have hmax : ∀ e ∈ expenses, e.amount ≤ b.amount := by
          intro e he
          exact sorted_last_max _ hsorted b hlast e (hperm.symm.subset he)
        have hcongr2 : ∀ e ∈ expenses.reverse,
            (expenses.all (fun e2 => decide (e2.amount ≤ e.amount)))
              = (decide (e.amount = b.amount)) := by
          intro e he'
          have he := List.mem_reverse.mp he'
          by_cases h : e.amount = b.amount
          · have hall : expenses.all (fun e2 => decide (e2.amount ≤ e.amount)) = true := by
              rw [List.all_eq_true]
              intro e2 he2
              simp only [decide_eq_true_eq]
              rw [h]
              exact hmax e2 he2
            rw [hall]
            simp [h]
          · have hall : expenses.all (fun e2 => decide (e2.amount ≤ e.amount)) = false := by
              rw [List.all_eq_false]
              refine ⟨b, hbmem, ?_⟩
              simp only [decide_eq_true_eq]
              intro hle
              exact h (le_antisymm (hmax e he) hle)
            rw [hall]
            simp [h]
        have hstable := insertionSort_filter_stable (r := fun a b => a.amount - b.amount ≤ 0)
          (fun e => decide (e.amount = b.amount)) expenses
          (by intro x y hx hy; simp at hx hy; omega)
        unfold sortedByAmount at hxs
        rw [hxs] at hstable
        rw [hhigh]
        unfold sortedByAmount
        rw [hxs, hlast, ← List.filter_head?, List.filter_congr hcongr2, List.filter_reverse,
          List.head?_reverse, ← hstable]
        exact (filter_getLast?_keep _ _ b hlast (by simp)).symm

/-! ## Grouping is a partition -/

theorem join_insertGroup (g : List (String × List Expense)) (k : String) (e : Expense) :
    ((insertGroup g k e).map Prod.snd).flatten.Perm (((g.map Prod.snd).flatten) ++ [e]) := by
  induction g with
  | nil => simp [insertGroup]
  | cons kv rest ih =>
    obtain ⟨k', es⟩ := kv
    rw [insertGroup]
    split_ifs with hk
    · simp only [List.map_cons, List.flatten_cons]
      rw [List.append_assoc, List.append_assoc]
      exact List.Perm.append_left es List.perm_append_comm
    · simp only [List.map_cons, List.flatten_cons]
      rw [List.append_assoc]
      exact List.Perm.append_left es ih

theorem join_foldl_insertGroup (groupBy : GroupByOption) (xs : List Expense) :
    ∀ g : List (String × List Expense),
      (((xs.foldl (fun groups e => insertGroup groups (labelOf groupBy e) e) g).map
        Prod.snd).flatten).Perm ((g.map Prod.snd).flatten ++ xs) := by
  induction xs with
  | nil => intro g; simp
  | cons e xs ih =>
    intro g
    rw [List.foldl_cons]
    refine (ih (insertGroup g (labelOf groupBy e) e)).trans ?_
    have h2 := (join_insertGroup g (labelOf groupBy e) e).append_right xs
    rw [List.append_assoc, List.singleton_append] at h2
    exact h2

/-- C8: under every grouping strategy the groups partition the input:
the concatenation of all group contents is a permutation of the input
list, so each record appears in the groups exactly as often as in the
input (no loss, no duplication). -/
theorem groupExpenses_partition (expenses : List Expense) (groupBy : GroupByOption) :
    (((groupExpenses expenses groupBy).map Prod.snd).flatten).Perm expenses := by
  unfold groupExpenses
  split_ifs with h
  · simp
  · simpa using join_foldl_insertGroup groupBy expenses []

/-- C2 counterexample: on the empty record list the `none` strategy
does not return an empty group mapping — the source returns the
single-entry mapping with key `All Expenses` before consulting the
records. -/
theorem empty_grouping_counterexample :
    groupExpenses [] GroupByOption.none ≠ [] := by decide

/-- C2 amended: on the empty record list every grouping strategy other
than `none` returns the empty mapping, `none` returns the single group
`All Expenses` holding no records, and the summary is all zeros with
`none` extrema and top category; the guarded means are 0 rather than a
division by zero. -/
theorem empty_input_summary (k : GroupByOption) (now : DateTime) :
    groupExpenses [] k = (if k = GroupByOption.none then [("All Expenses", [])] else [])
      ∧ (calculateSummary [] now).totalExpenses = 0
      ∧ (calculateSummary [] now).monthlyTotal = 0
      ∧ (∀ c, (calculateSummary [] now).categoryTotals c = 0)
      ∧ (calculateSummary [] now).averageExpense = 0
      ∧ (calculateSummary [] now).averageDaily = 0
      ∧ (calculateSummary [] now).averageMonthly = 0
      ∧ (calculateSummary [] now).expenseCount = 0
      ∧ (calculateSummary [] now).topCategory = Option.none
      ∧ (calculateSummary [] now).highestExpense = Option.none
      ∧ (calculateSummary [] now).lowestExpense = Option.none := by
  refine ⟨?_, rfl, rfl, fun c => rfl, rfl, rfl, rfl, rfl, rfl, rfl, rfl⟩
  unfold groupExpenses
  split_ifs with h <;> rfl

/-! ## Group iteration order -/

/-- Whether a string begins with a non-digit character (such a string
is never an array-index key). -/
def headNonDigit (s : String) : Bool :=
  match s.data with
  | [] => false
  | c :: _ => !c.isDigit

theorem isArrayIndex_eq_false_of_headNonDigit {s : String} (h : headNonDigit s = true) :
    isArrayIndex s = false := by
  unfold headNonDigit at h
  unfold isArrayIndex
  rcases hs : s.data with _ | ⟨c, cs⟩
  · rfl
  · rw [hs] at h
    simp only [Bool.not_eq_true'] at h
    simp [h]

theorem headNonDigit_append (s t : String) (h : headNonDigit s = true) :
    headNonDigit (s ++ t) = true := by
  unfold headNonDigit at *
  have hdata : (s ++ t).data = s.data ++ t.data := rfl
  rw [hdata]
  rcases hs : s.data with _ | ⟨c, cs⟩
  · rw [hs] at h; simp at h
  · rw [hs] at h
    simpa using h

theorem headNonDigit_monthAbbrev (m : Nat) : headNonDigit (monthAbbrev m) = true := by
  unfold monthAbbrev
  by_cases h : m - 1 < 12
  · set i := m - 1 with hi
    interval_cases i <;> decide
  · rw [List.getD_eq_default]
    · decide
    · simpa using Nat.le_of_not_lt h

theorem headNonDigit_monthName (m : Nat) : headNonDigit (monthName m) = true := by
  unfold monthName
  by_cases h : m - 1 < 12
  · set i := m - 1 with hi
    interval_cases i <;> decide
  · rw [List.getD_eq_default]
    · decide
    · simpa using Nat.le_of_not_lt h

/-- Except for `year`, no group label is an array-index key: labels of
the other six strategies begin with a letter or a dollar sign. -/
theorem labelOf_not_index (k : GroupByOption) (hk : k ≠ GroupByOption.year) (e : Expense) :
    isArrayIndex (labelOf k e) = false := by
  apply isArrayIndex_eq_false_of_headNonDigit
  cases k with
  | year => exact absurd rfl hk
  | none => rfl
  | category =>
    unfold labelOf
    cases e.category <;> rfl
  | day =>
    unfold labelOf formatDayLabel
    exact headNonDigit_append _ _ (headNonDigit_append _ _ (headNonDigit_append _ _
      (headNonDigit_append _ _ (headNonDigit_monthAbbrev e.date.month))))
  | week =>
    unfold labelOf
    exact headNonDigit_append _ _ rfl
  | month =>
    unfold labelOf
    exact headNonDigit_append _ _ (headNonDigit_append _ _ (headNonDigit_monthName e.date.month))
  | amountRange =>
    unfold labelOf
    split_ifs <;> rfl

/-- With no array-index key present, the JS iteration order is just
the insertion order of the keys. -/
theorem ownKeys_of_no_index (g : List (String × List Expense))
    (h : ∀ k ∈ g.map Prod.fst, isArrayIndex k = false) :
    ownKeys g = g.map Prod.fst := by
  have h1 : (g.map Prod.fst).filter (fun k => isArrayIndex k) = [] := by
    rw [List.filter_eq_nil_iff]
    intro k hk
    simp [h k hk]
  have h2 : (g.map Prod.fst).filter (fun k => !(isArrayIndex k)) = g.map Prod.fst := by
    rw [List.filter_eq_self]
    intro k hk
    simp [h k hk]
  unfold ownKeys
  dsimp only
  rw [h1, h2]
  rfl

theorem insertGroup_keys (g : List (String × List Expense)) (k : String) (e : Expense) :
    (insertGroup g k e).map Prod.fst =
      (if k ∈ g.map Prod.fst then g.map Prod.fst else g.map Prod.fst ++ [k]) := by
  induction g with
  | nil => simp [insertGroup]
  | cons kv rest ih =>
    obtain ⟨k', es⟩ := kv
    rw [insertGroup]
    by_cases hk : k' = k
    · subst hk
      rw [if_pos rfl]
      simp
    · rw [if_neg hk]
      have hne : ¬ k = k' := fun hcon => hk hcon.symm
      simp only [List.map_cons, ih]
      by_cases hmem : k ∈ rest.map Prod.fst
      · rw [if_pos hmem, if_pos (by simp [List.mem_cons, hmem])]
      · rw [if_neg hmem, if_neg (by simp [List.mem_cons, hne, hmem])]
        simp

theorem keys_foldl_encounter (groupBy : GroupByOption) (xs : List Expense) :
    ∀ g : List (String × List Expense),
      (xs.foldl (fun groups e => insertGroup groups (labelOf groupBy e) e) g).map Prod.fst
        = xs.foldl
            (fun ks e => if labelOf groupBy e ∈ ks then ks else ks ++ [labelOf groupBy e])
            (g.map Prod.fst) := by
  induction xs with
  | nil => intro g; rfl
  | cons e xs ih =>
    intro g
    rw [List.foldl_cons, List.foldl_cons, ih, insertGroup_keys]

theorem mem_encounter_foldl (groupBy : GroupByOption) (xs : List Expense) :
    ∀ (ks0 : List String) (key : String),
      key ∈ xs.foldl
          (fun ks e => if labelOf groupBy e ∈ ks then ks else ks ++ [labelOf groupBy e]) ks0 →
        key ∈ ks0 ∨ ∃ e ∈ xs, key = labelOf groupBy e := by
  induction xs with
  | nil => intro ks0 key h; exact Or.inl h
  | cons e xs ih =>
    intro ks0 key h
    rw [List.foldl_cons] at h
    rcases ih _ key h with hin | ⟨e2, he2, rfl⟩
    · split_ifs at hin with hsplit
      · exact Or.inl hin
      · rcases List.mem_append.mp hin with hin | hin
        · exact Or.inl hin
        · exact Or.inr ⟨e, List.mem_cons_self e xs, (List.mem_singleton.mp hin)⟩
    · exact Or.inr ⟨e2, List.mem_cons_of_mem e he2, rfl⟩

/-- C3 counterexample: under the `year` strategy the labels are
array-index keys, which a JS object iterates in ascending numeric
order, not first-encounter order: records dated 2023 then 2021 yield
iteration order 2021, 2023. -/
theorem year_iteration_counterexample :
    ownKeys (groupExpenses
        [⟨"a", ⟨2023, 5, 1⟩, 10, .food, "alpha", "", ""⟩,
          ⟨"b", ⟨2021, 5, 1⟩, 20, .food, "beta", "", ""⟩] GroupByOption.year)
      ≠ firstEncounterLabels
          [⟨"a", ⟨2023, 5, 1⟩, 10, .food, "alpha", "", ""⟩,
            ⟨"b", ⟨2021, 5, 1⟩, 20, .food, "beta", "", ""⟩] GroupByOption.year := by
  decide

/-- C3 amended: for every strategy except `year` the iteration order
of the group mapping is its insertion order, which for the six
record-driven strategies is the first-encounter order of labels in the
input; for `none` it is the single fixed label `All Expenses`. -/
theorem grouping_iteration_first_encounter (xs : List Expense) (k : GroupByOption)
    (hk : k ≠ GroupByOption.year) :
    ownKeys (groupExpenses xs k) = (groupExpenses xs k).map Prod.fst
      ∧ (k ≠ GroupByOption.none →
          (groupExpenses xs k).map Prod.fst = firstEncounterLabels xs k)
      ∧ (k = GroupByOption.none → groupExpenses xs k = [("All Expenses", xs)]) := by
  refine ⟨?_, ?_, ?_⟩
  · apply ownKeys_of_no_index
    intro key hkey
    unfold groupExpenses at hkey
    split_ifs at hkey with hnone
    · simp at hkey
      rw [hkey]
      decide
    · rw [keys_foldl_encounter] at hkey
      rcases mem_encounter_foldl k xs [] key (by simpa using hkey) with hin | ⟨e, he, rfl⟩
      · simp at hin
      · exact labelOf_not_index k hk e
  · intro hnone
    unfold groupExpenses
    rw [if_neg hnone, keys_foldl_encounter]
    rfl
  · intro hnone
    subst hnone
    rfl

/-- Witness for the amended C3 at a concrete strategy and list. -/
theorem grouping_iteration_first_encounter_witness :
    ownKeys (groupExpenses
          [⟨"a", ⟨2023, 5, 1⟩, 10, .food, "alpha", "", ""⟩,
            ⟨"b", ⟨2021, 5, 1⟩, 20, .shopping, "beta", "", ""⟩] GroupByOption.category)
        = (groupExpenses
            [⟨"a", ⟨2023, 5, 1⟩, 10, .food, "alpha", "", ""⟩,
              ⟨"b", ⟨2021, 5, 1⟩, 20, .shopping, "beta", "", ""⟩]
            GroupByOption.category).map Prod.fst
      ∧ (groupExpenses
            [⟨"a", ⟨2023, 5, 1⟩, 10, .food, "alpha", "", ""⟩,
              ⟨"b", ⟨2021, 5, 1⟩, 20, .shopping, "beta", "", ""⟩]
            GroupByOption.category).map Prod.fst
          = firstEncounterLabels
              [⟨"a", ⟨2023, 5, 1⟩, 10, .food, "alpha", "", ""⟩,
                ⟨"b", ⟨2021, 5, 1⟩, 20, .shopping, "beta", "", ""⟩] GroupByOption.category :=
  ⟨(grouping_iteration_first_encounter _ GroupByOption.category (by decide)).1,
    (grouping_iteration_first_encounter _ GroupByOption.category (by decide)).2.1 (by decide)⟩

/-! ## Top category -/

/-- The threshold the reduction compares against: the current best's
total, or 0 when no best exists yet (`max?.amount || 0`). -/
def topBar : Option (ExpenseCategory × Int) → Int
  | some b => b.2
  | Option.none => 0

theorem topCategoryStep_eq (totals : ExpenseCategory → Int)
    (best : Option (ExpenseCategory × Int)) (c : ExpenseCategory) :
    topCategoryStep totals best c =
      if totals c > topBar best then some (c, totals c) else best := by
  cases best <;> rfl

/-- The largest total over a list of categories (0 when empty). -/
def maxTotal (totals : ExpenseCategory → Int) (L : List ExpenseCategory) : Int :=
  L.foldr (fun c m => max (totals c) m) 0

theorem le_maxTotal (totals : ExpenseCategory → Int) (L : List ExpenseCategory)
    (c : ExpenseCategory) (hc : c ∈ L) : totals c ≤ maxTotal totals L := by
  induction L with
  | nil => simp at hc
  | cons d L ih =>
    rcases List.mem_cons.mp hc with rfl | hc2
    · exact le_max_left _ _
    · exact le_trans (ih hc2) (le_max_right _ _)

/-- Characterisation of the `topCategory` reduction over any category
list: it returns the accumulator if no total beats the threshold, and
otherwise the first category attaining the largest total, paired with
that total. -/
theorem topFold_spec (totals : ExpenseCategory → Int) :
    ∀ (L : List ExpenseCategory) (acc : Option (ExpenseCategory × Int)),
      0 ≤ topBar acc →
      (maxTotal totals L ≤ topBar acc → L.foldl (topCategoryStep totals) acc = acc)
        ∧ (topBar acc < maxTotal totals L →
            ∃ c, L.find? (fun c => totals c == maxTotal totals L) = some c
              ∧ L.foldl (topCategoryStep totals) acc = some (c, maxTotal totals L)) := by
  intro L
  induction L with
  | nil =>
    intro acc hb
    refine ⟨fun _ => rfl, fun hlt => absurd hlt (by simp [maxTotal]; omega)⟩
  | cons c L ih =>
    intro acc hb
    have hMcons : maxTotal totals (c :: L) = max (totals c) (maxTotal totals L) := rfl
    rw [List.foldl_cons, topCategoryStep_eq]
    by_cases hstep : totals c > topBar acc
    · rw [if_pos hstep]
      have hb' : (0 : Int) ≤ topBar (some (c, totals c)) := by
        simp only [topBar]
        omega
      constructor
      · intro hle
        exfalso
        have := le_max_left (totals c) (maxTotal totals L)
        rw [hMcons] at hle
        omega
      · intro _
        rcases le_or_lt (maxTotal totals L) (totals c) with hcase | hcase
        · have hM : maxTotal totals (c :: L) = totals c := by
            rw [hMcons]
            exact max_eq_left hcase
          have hstop := (ih (some (c, totals c)) hb').1 (by simpa [topBar] using hcase)
          refine ⟨c, ?_, ?_⟩
          · rw [List.find?_cons_of_pos]
            simp [hM]
          · rw [hstop, hM]
        · have hM : maxTotal totals (c :: L) = maxTotal totals L := by
            rw [hMcons]
            exact max_eq_right (le_of_lt hcase)
          obtain ⟨c0, hfind, hfold⟩ :=
            (ih (some (c, totals c)) hb').2 (by simpa [topBar] using hcase)
          refine ⟨c0, ?_, ?_⟩
          · rw [List.find?_cons_of_neg]
            · rw [hM]
              exact hfind
            · simp [hM]
              omega
          · rw [hfold, hM]
    · rw [if_neg hstep]
      push_neg at hstep
      constructor
      · intro hle
        rw [hMcons] at hle
        exact (ih acc hb).1 (le_trans (le_max_right _ _) hle)
      · intro hlt
        have hL : topBar acc < maxTotal totals L := by
          rw [hMcons] at hlt
          rcases max_cases (totals c) (maxTotal totals L) with ⟨heq, _⟩ | ⟨heq, _⟩ <;> omega
        have hM : maxTotal totals (c :: L) = maxTotal totals L := by
          rw [hMcons]
          exact max_eq_right (by omega)
        obtain ⟨c0, hfind, hfold⟩ := (ih acc hb).2 hL
        refine ⟨c0, ?_, ?_⟩
        · rw [List.find?_cons_of_neg]
          · rw [hM]
            exact hfind
          · simp [hM]
            omega
        · rw [hfold, hM]

theorem foldl_total_le (c : ExpenseCategory) (xs : List Expense) :
    ∀ init : Int, (∀ e ∈ xs, 0 ≤ e.amount) →
      init ≤ xs.foldl (fun s e => if e.category = c then s + e.amount else s) init := by
  induction xs with
  | nil => intro init _; exact le_refl init
  | cons e xs ih =>
    intro init hpos
    rw [List.foldl_cons]
    have he := hpos e (List.mem_cons_self e xs)
    have htail := ih (if e.category = c then init + e.amount else init)
      (fun e2 he2 => hpos e2 (List.mem_cons_of_mem e he2))
    split_ifs at htail ⊢ <;> omega

theorem foldl_total_pos (c : ExpenseCategory) (xs : List Expense) :
    ∀ init : Int, (∀ e ∈ xs, 0 < e.amount) → (∃ e ∈ xs, e.category = c) →
      init < xs.foldl (fun s e => if e.category = c then s + e.amount else s) init := by
  induction xs with
  | nil => intro init _ hw; simp at hw
  | cons e xs ih =>
    intro init hpos hw
    rw [List.foldl_cons]
    have hnn : ∀ e2 ∈ xs, (0 : Int) ≤ e2.amount :=
      fun e2 he2 => le_of_lt (hpos e2 (List.mem_cons_of_mem e he2))
    by_cases hc : e.category = c
    · rw [if_pos hc]
      have he := hpos e (List.mem_cons_self e xs)
      have := foldl_total_le c xs (init + e.amount) hnn
      omega
    · rw [if_neg hc]
      rcases hw with ⟨e2, he2, hcat⟩
      rcases List.mem_cons.mp he2 with rfl | he2tail
      · exact absurd hcat hc
      · exact ih init (fun e3 he3 => hpos e3 (List.mem_cons_of_mem e he3)) ⟨e2, he2tail, hcat⟩

theorem categoryTotalsOf_nonneg (xs : List Expense) (hpos : ∀ e ∈ xs, 0 < e.amount)
    (c : ExpenseCategory) : 0 ≤ categoryTotalsOf xs c :=
  foldl_total_le c xs 0 (fun e he => le_of_lt (hpos e he))

theorem mem_categoriesEnum (c : ExpenseCategory) : c ∈ categoriesEnum := by
  cases c <;> decide

/-- Restatement of the claim's selection rule: `none` on the empty
record list, otherwise the pair of the strictly largest per-category
total and the first category in the fixed enumeration order attaining
it. -/
def specTopCategory (expenses : List Expense) : Option (ExpenseCategory × Int) :=
  if expenses = [] then Option.none
  else
    match categoriesEnum.find?
        (fun c => categoryTotalsOf expenses c
          == maxTotal (categoryTotalsOf expenses) categoriesEnum) with
    | some c => some (c, maxTotal (categoryTotalsOf expenses) categoriesEnum)
    | Option.none => Option.none

/-- C7: under the documented invariant that amounts are strictly
positive, topCategory is none exactly on the empty list and otherwise
the first category in enumeration order attaining the largest total
(replacement happens only on a strictly greater total). -/
theorem topCategory_claim (expenses : List Expense) (now : DateTime)
    (hpos : ∀ e ∈ expenses, 0 < e.amount) :
    (calculateSummary expenses now).topCategory = specTopCategory expenses := by
  have hred : (calculateSummary expenses now).topCategory = topCategoryOf expenses := rfl
  rw [hred]
  rcases hxs : expenses with _ | ⟨e0, rest⟩
  · rfl
  · rw [← hxs]
    have hne : expenses ≠ [] := by rw [hxs]; simp
    have hmem : e0 ∈ expenses := by rw [hxs]; exact List.mem_cons_self e0 rest
    have hposc : 0 < categoryTotalsOf expenses e0.category :=
      foldl_total_pos e0.category expenses 0 hpos ⟨e0, hmem, rfl⟩
    have hM : 0 < maxTotal (categoryTotalsOf expenses) categoriesEnum :=
      lt_of_lt_of_le hposc
        (le_maxTotal (categoryTotalsOf expenses) categoriesEnum e0.category
          (mem_categoriesEnum e0.category))
    obtain ⟨c, hfind, hfold⟩ :=
      ((topFold_spec (categoryTotalsOf expenses) categoriesEnum Option.none (le_refl 0)).2
        (by simpa [topBar] using hM))
    unfold topCategoryOf specTopCategory
    rw [if_neg hne, hfold, hfind]

/-- Witness for C7 on a concrete positive-amount record list (an exact
tie between Food and Shopping resolved to Food). -/
theorem topCategory_claim_witness :
    (calculateSummary
        [⟨"a", ⟨2024, 1, 5⟩, 20, .shopping, "gift", "", ""⟩,
          ⟨"b", ⟨2024, 1, 6⟩, 20, .food, "meal", "", ""⟩] ⟨⟨2024, 1, 10⟩, 0⟩).topCategory
      = some (.food, 20) := by
  have h := topCategory_claim
    [⟨"a", ⟨2024, 1, 5⟩, 20, .shopping, "gift", "", ""⟩,
      ⟨"b", ⟨2024, 1, 6⟩, 20, .food, "meal", "", ""⟩] ⟨⟨2024, 1, 10⟩, 0⟩
    (by decide)
  rw [h]
  decide

/-! ## CSV serialisation -/

/-- C4: evaluation of the serializer at the specification's own test
vector.  The source wraps each field in quotes but never doubles
embedded double quotes, so the description `He said "hi", ok` is
emitted as `"He said "hi", ok"` and not as the round-trip-safe
`"He said ""hi"", ok"` the specification mandates. -/
theorem csv_quote_escaping_bug :
    exportToCSV [⟨"1", ⟨2024, 1, 5⟩, 12, .food, "He said \"hi\", ok", "", ""⟩]
        = "Date,Amount,Category,Description\n\"Jan 05, 2024\",\"12\",\"Food\",\"He said \"hi\", ok\""
      ∧ exportToCSV [⟨"1", ⟨2024, 1, 5⟩, 12, .food, "He said \"hi\", ok", "", ""⟩]
        ≠ "Date,Amount,Category,Description\n\"Jan 05, 2024\",\"12\",\"Food\",\"He said \"\"hi\"\", ok\"" := by
  constructor
  · decide
  · decide
